import Mathlib

/-
  Verification development for src/hash.c of the UnrealIRCd repository:
  the keyed SipHash primitive, the fixed-bucket hash tables (client name,
  client id, channel, watch), the watch registry and the connection
  throttling store, shallowly embedded over Lists and Nat/Int arithmetic.

  Strings (char arrays) are modelled as lists of byte values (List Nat);
  machine 64-bit arithmetic is Nat taken modulo 2^64; time_t is Int.
-/

/-- Byte strings: a C char array is a list of byte values. -/
abbrev Str := List Nat

/-- The modulus of 64-bit machine words. -/
def m64 : Nat := 2 ^ 64

/-- ASCII tolower, as used by the nocase hashing macros in src/hash.c
(chars are unsigned in UnrealIRCd). -/
def tolower (c : Nat) : Nat := if 65 ≤ c ∧ c ≤ 90 then c + 32 else c

/-- ROTL(x, b) from src/hash.c: 64-bit rotate left. -/
def rotl (x b : Nat) : Nat := ((x <<< b) % m64) ||| (x >>> (64 - b))

/-- The four 64-bit state words v0..v3 of SipHash. -/
structure SipState where
  v0 : Nat
  v1 : Nat
  v2 : Nat
  v3 : Nat
deriving DecidableEq

/-- The SIPROUND macro from src/hash.c, one add-rotate-xor round. -/
def sipround (s : SipState) : SipState :=
  let v0 := (s.v0 + s.v1) % m64
  let v1 := rotl s.v1 13
  let v1 := v1 ^^^ v0
  let v0 := rotl v0 32
  let v2 := (s.v2 + s.v3) % m64
  let v3 := rotl s.v3 16
  let v3 := v3 ^^^ v2
  let v0 := (v0 + v3) % m64
  let v3 := rotl v3 21
  let v3 := v3 ^^^ v0
  let v2 := (v2 + v1) % m64
  let v1 := rotl v1 17
  let v1 := v1 ^^^ v2
  let v2 := rotl v2 32
  ⟨v0, v1, v2, v3⟩

/-- U8TO64_LE: load 8 bytes little-endian (missing positions read as 0,
which also serves for the 0-7 byte tail block of the hash). -/
def u8to64 (p : List Nat) : Nat :=
  p.getD 0 0 ||| (p.getD 1 0 <<< 8) ||| (p.getD 2 0 <<< 16) ||| (p.getD 3 0 <<< 24) |||
  (p.getD 4 0 <<< 32) ||| (p.getD 5 0 <<< 40) ||| (p.getD 6 0 <<< 48) ||| (p.getD 7 0 <<< 56)

/-- U8TO64_LE_NOCASE: the same load with every byte ASCII-lowercased. -/
def u8to64nc (p : List Nat) : Nat :=
  tolower (p.getD 0 0) ||| (tolower (p.getD 1 0) <<< 8) ||| (tolower (p.getD 2 0) <<< 16) |||
  (tolower (p.getD 3 0) <<< 24) ||| (tolower (p.getD 4 0) <<< 32) |||
  (tolower (p.getD 5 0) <<< 40) ||| (tolower (p.getD 6 0) <<< 48) |||
  (tolower (p.getD 7 0) <<< 56)

/-- One iteration of the main loop of siphash_raw: v3 ^= m, two SIPROUNDs,
v0 ^= m. -/
def sipcompress (s : SipState) (m : Nat) : SipState :=
  let s1 : SipState := { s with v3 := s.v3 ^^^ m }
  let s2 := sipround (sipround s1)
  { s2 with v0 := s2.v0 ^^^ m }

/-- The main loop of siphash_raw: absorb each full 8-byte word of the
input (the loop runs while at least 8 bytes remain before the tail). -/
def sipabsorb : SipState → List Nat → SipState
  | s, b0 :: b1 :: b2 :: b3 :: b4 :: b5 :: b6 :: b7 :: rest =>
      sipabsorb (sipcompress s (u8to64 [b0, b1, b2, b3, b4, b5, b6, b7])) rest
  | s, _ => s

/-- The main loop of siphash_nocase: identical but each byte is
lowercased by U8TO64_LE_NOCASE before being mixed. -/
def sipabsorbnc : SipState → List Nat → SipState
  | s, b0 :: b1 :: b2 :: b3 :: b4 :: b5 :: b6 :: b7 :: rest =>
      sipabsorbnc (sipcompress s (u8to64nc [b0, b1, b2, b3, b4, b5, b6, b7])) rest
  | s, _ => s

/-- The 0-7 trailing bytes left after the main loop (in = end exits the
loop with inlen mod 8 bytes remaining). -/
def siprest : List Nat → List Nat
  | _ :: _ :: _ :: _ :: _ :: _ :: _ :: _ :: rest => siprest rest
  | bs => bs

/-- The initial state of siphash_raw / siphash_nocase: the four SipHash
constants xored with the two key words (v3 ^= k1; v2 ^= k0; v1 ^= k1;
v0 ^= k0). -/
def sipinit (k0 k1 : Nat) : SipState :=
  { v0 := 0x736f6d6570736575 ^^^ k0
    v1 := 0x646f72616e646f6d ^^^ k1
    v2 := 0x6c7967656e657261 ^^^ k0
    v3 := 0x7465646279746573 ^^^ k1 }

/-- The finalization of siphash_raw / siphash_nocase: absorb the tail
block b, xor 0xff into v2, four SIPROUNDs, xor the four state words
(the little-endian store into the returned integer is the identity on
the value). -/
def sipfinish (s : SipState) (b : Nat) : Nat :=
  let s1 : SipState := { s with v3 := s.v3 ^^^ b }
  let s2 := sipround (sipround s1)
  let s3 : SipState := { s2 with v0 := s2.v0 ^^^ b, v2 := s2.v2 ^^^ 0xff }
  let s4 := sipround (sipround (sipround (sipround s3)))
  s4.v0 ^^^ s4.v1 ^^^ s4.v2 ^^^ s4.v3

/-- siphash_raw from src/hash.c. The key is 16 bytes; k0 and k1 are its
two little-endian words. The tail block packs the 0-7 trailing bytes
with the input length in the top byte. -/
def siphash_raw (input : Str) (key : Str) : Nat :=
  let k0 := u8to64 key
  let k1 := u8to64 (key.drop 8)
  let s := sipabsorb (sipinit k0 k1) input
  let b := ((input.length <<< 56) % m64) ||| u8to64 (siprest input)
  sipfinish s b

/-- siphash_nocase from src/hash.c: the same algorithm with every input
byte ASCII-lowercased before being mixed (inlen = strlen is the raw
length). -/
def siphash_nocase (input : Str) (key : Str) : Nat :=
  let k0 := u8to64 key
  let k1 := u8to64 (key.drop 8)
  let s := sipabsorbnc (sipinit k0 k1) input
  let b := ((input.length <<< 56) % m64) ||| u8to64nc (siprest input)
  sipfinish s b

/-- siphash from src/hash.c: siphash_raw over the NUL-terminated string
(inlen = strlen). -/
def siphash (input : Str) (key : Str) : Nat := siphash_raw input key

/-- Indexing commutes with mapping tolower (tolower 0 = 0 covers the
out-of-range default). -/
theorem getD_map_tolower : ∀ (p : List Nat) (i : Nat),
    (p.map tolower).getD i 0 = tolower (p.getD i 0) := by
  intro p
  induction p with
  | nil => intro i; simp [tolower]
  | cons a as ih =>
      intro i
      cases i with
      | zero => simp
      | succ j => simpa using ih j

/-- The nocase word load is the plain word load of the lowercased bytes. -/
theorem u8to64nc_eq (p : List Nat) : u8to64nc p = u8to64 (p.map tolower) := by
  simp only [u8to64nc, u8to64, getD_map_tolower]

/-- The nocase absorb loop is the plain absorb loop on the lowercased
input. -/
theorem sipabsorbnc_eq : ∀ (s : SipState) (bs : List Nat),
    sipabsorbnc s bs = sipabsorb s (bs.map tolower)
  | s, b0 :: b1 :: b2 :: b3 :: b4 :: b5 :: b6 :: b7 :: rest => by
      simp only [sipabsorbnc, List.map_cons, sipabsorb]
      rw [sipabsorbnc_eq _ rest, u8to64nc_eq]
      simp
  | _, [] => by simp [sipabsorbnc, sipabsorb]
  | _, [b0] => by simp [sipabsorbnc, sipabsorb]
  | _, [b0, b1] => by simp [sipabsorbnc, sipabsorb]
  | _, [b0, b1, b2] => by simp [sipabsorbnc, sipabsorb]
  | _, [b0, b1, b2, b3] => by simp [sipabsorbnc, sipabsorb]
  | _, [b0, b1, b2, b3, b4] => by simp [sipabsorbnc, sipabsorb]
  | _, [b0, b1, b2, b3, b4, b5] => by simp [sipabsorbnc, sipabsorb]
  | _, [b0, b1, b2, b3, b4, b5, b6] => by simp [sipabsorbnc, sipabsorb]

/-- The tail extraction commutes with lowercasing. -/
theorem siprest_map : ∀ (bs : List Nat),
    siprest (bs.map tolower) = (siprest bs).map tolower
  | b0 :: b1 :: b2 :: b3 :: b4 :: b5 :: b6 :: b7 :: rest => by
      simp only [siprest, List.map_cons]
      exact siprest_map rest
  | [] => by simp [siprest]
  | [b0] => by simp [siprest]
  | [b0, b1] => by simp [siprest]
  | [b0, b1, b2] => by simp [siprest]
  | [b0, b1, b2, b3] => by simp [siprest]
  | [b0, b1, b2, b3, b4] => by simp [siprest]
  | [b0, b1, b2, b3, b4, b5] => by simp [siprest]
  | [b0, b1, b2, b3, b4, b5, b6] => by simp [siprest]

/-- siphash_nocase is siphash_raw of the lowercased string. -/
theorem siphash_nocase_eq (input key : Str) :
    siphash_nocase input key = siphash_raw (input.map tolower) key := by
  simp only [siphash_nocase, siphash_raw, sipabsorbnc_eq, siprest_map, u8to64nc_eq,
    List.length_map]

/-- siphash_nocase is invariant under case variation of its input. -/
theorem siphash_nocase_invariant (a b key : Str)
    (h : a.map tolower = b.map tolower) :
    siphash_nocase a key = siphash_nocase b key := by
  rw [siphash_nocase_eq, siphash_nocase_eq, h]

/-- A user record; of the fields of struct User only the server name is
relevant to the functions of src/hash.c modelled here. -/
structure User where
  server : Str
deriving DecidableEq

/-- A client entity. Of struct Client we keep the fields read by the
code of src/hash.c: the name, the id, the IsServer flag and the optional
user record (cptr->user). Table membership is not embedded in the entity
(the intrusive client_hash / id_hash link nodes become positions in the
bucket lists below). -/
structure Client where
  name : Str
  id : Str
  isServer : Bool
  user : Option User
deriving DecidableEq

/-- Modelled from the spec: the case-insensitive string comparison
(smycmp / mycmp, defined outside src/), as the spec's "case-insensitive
comparison": equality of ASCII-lowercased strings. True means the two
strings compare equal (the C functions return 0 then). -/
def nocase_eq (a b : Str) : Bool := a.map tolower == b.map tolower

/-- A fixed-bucket table of clients: bucket index to collision chain.
The array of NICK_HASH_TABLE_SIZE heads is total on Nat; indices are
always reduced modulo the size by the hash functions. -/
abbrev ClientTable := Nat → List Client

/-- hash_client_name from src/hash.c: the nocase hash reduced modulo
NICK_HASH_TABLE_SIZE (the size and the key siphashkey_nick are
configuration-time parameters). -/
def hash_client_name (size : Nat) (key : Str) (name : Str) : Nat :=
  siphash_nocase name key % size

/-- add_to_client_hash_table from src/hash.c: when loop.tainted is set
nothing is inserted; otherwise the client is prepended (list_add) to the
bucket chain of hash_client_name(name). -/
def add_to_client_hash_table (size : Nat) (key : Str) (tainted : Bool)
    (name : Str) (cptr : Client) (t : ClientTable) : ClientTable :=
  if tainted then t
  else fun i => if i = hash_client_name size key name then cptr :: t i else t i

/-- Removal of the first occurrence of a client from a chain; the
functional rendering of the intrusive list_del on the client's link
node (a no-op when the client is not linked). -/
def eraseClient (cptr : Client) : List Client → List Client
  | [] => []
  | x :: rest => if x = cptr then rest else x :: eraseClient cptr rest

/-- del_from_client_hash_table from src/hash.c: unlink the client from
whichever chain holds it (list_del if linked, then reinitialize the
node). -/
def del_from_client_hash_table (cptr : Client) (t : ClientTable) : ClientTable :=
  fun i => eraseClient cptr (t i)

/-- hash_find_client from src/hash.c: scan the bucket chain of the name
for the first entry whose name compares equal under smycmp; return the
caller-supplied client on a miss. -/
def hash_find_client (size : Nat) (key : Str) (name : Str) (cptr : Option Client)
    (t : ClientTable) : Option Client :=
  match (t (hash_client_name size key name)).find? (fun x => nocase_eq name x.name) with
  | some x => some x
  | none => cptr

/-- hash_find_id from src/hash.c: the same scan over the id table,
comparing against the id field. -/
def hash_find_id (size : Nat) (key : Str) (name : Str) (cptr : Option Client)
    (t : ClientTable) : Option Client :=
  match (t (hash_client_name size key name)).find? (fun x => nocase_eq name x.id) with
  | some x => some x
  | none => cptr

/-- The trusted-requester test of find_client in src/hash.c:
cptr == NULL || IsServer(cptr). -/
def trustedRequester : Option Client → Bool
  | none => true
  | some c => c.isServer

/-- find_client from src/hash.c: when the requester is NULL or a server,
first consult the id table (returning a hit immediately); in all cases
fall through to the name table, always with a NULL miss-fallback. -/
def find_client (size : Nat) (key : Str) (idT clientT : ClientTable)
    (name : Str) (req : Option Client) : Option Client :=
  if trustedRequester req then
    match hash_find_id size key name none idT with
    | some acptr => some acptr
    | none => hash_find_client size key name none clientT
  else
    hash_find_client size key name none clientT

/-- hash_find_nickatserver from src/hash.c: copy the input into a
buffer of NICKLEN+HOSTLEN+1 bytes (strlcpy keeps at most bufsize-1
bytes), split at the first at-sign (strchr), resolve the nick part via
find_client with a NULL requester, and when a server part is present
validate it case-insensitively against the resolved client's
user->server, returning the caller-supplied fallback on a mismatch or
when the client has no user record. -/
def hash_find_nickatserver (size : Nat) (key : Str) (idT clientT : ClientTable)
    (bufsize : Nat) (str : Str) (cptr : Option Client) : Option Client :=
  let buf := str.take (bufsize - 1)
  let nick := buf.takeWhile (fun c => c != 64)
  let rest := buf.dropWhile (fun c => c != 64)
  let serv := rest.drop 1
  match find_client size key idT clientT nick none with
  | none => none
  | some acptr =>
    if rest.isEmpty then some acptr
    else
      match acptr.user with
      | some u => if nocase_eq serv u.server then some acptr else cptr
      | none => cptr

/-- hash_get_chan_bucket from src/hash.c. The channel bucket array of
CHAN_HASH_TABLE_SIZE chain heads is a list of that length (a head is
NULL or a channel chain, modelled as an identifier). The C array read
channelTable[hashv] is total only for hashv < size; an out-of-range
read, undefined in C, is the none result of List.get?, while a defined
return value (the guard's NULL or a real head) is some. -/
def hash_get_chan_bucket (size : Nat) (channelTable : List (Option Nat))
    (hashv : Nat) : Option (Option Nat) :=
  if hashv > size then some none
  else channelTable.get? hashv

/-- A successful find? splits the list into a prefix of failures, the
found element, and a remainder. -/
theorem find?_decomp {α : Type} (p : α → Bool) :
    ∀ (l : List α) (a : α), l.find? p = some a →
      ∃ l1 l2, l = l1 ++ a :: l2 ∧ ∀ x ∈ l1, p x = false
  | [], a, h => by simp [List.find?] at h
  | x :: rest, a, h => by
      by_cases hx : p x
      · refine ⟨[], rest, ?_, by simp⟩
        rw [List.find?_cons_of_pos _ hx] at h
        simp only [Option.some.injEq] at h
        simp [h]
      · rw [List.find?_cons_of_neg _ hx] at h
        obtain ⟨l1, l2, hdec, hpre⟩ := find?_decomp p rest a h
        refine ⟨x :: l1, l2, by simp [hdec], ?_⟩
        intro y hy
        rcases List.mem_cons.mp hy with rfl | hy
        · exact Bool.of_not_eq_true hx
        · exact hpre y hy

/-- hash_client_name places case variations of a name in the same
bucket (the table placement agrees with case-insensitive comparison). -/
theorem hash_client_name_invariant (size : Nat) (key : Str) (a b : Str)
    (h : a.map tolower = b.map tolower) :
    hash_client_name size key a = hash_client_name size key b := by
  unfold hash_client_name
  rw [siphash_nocase_invariant a b key h]

/-- A per-address connection-attempt bucket (struct ThrottlingBucket):
the address text, the window-start time and the attempt counter. The
intrusive prev/next chain links become a position in the chain list. -/
structure ThrottlingBucket where
  ip : Str
  since : Int
  count : Nat
deriving DecidableEq

/-- The ThrottlingHash chains: bucket index to collision chain. -/
abbrev ThrottlingTable := Nat → List ThrottlingBucket

/-- hash_throttling from src/hash.c: the case-sensitive siphash of the
address text modulo THROTTLING_HASH_TABLE_SIZE. -/
def hash_throttling (size : Nat) (key : Str) (ip : Str) : Nat :=
  siphash ip key % size

/-- find_throttling_bucket from src/hash.c: scan the address's chain
for the first bucket whose ip is strcmp-equal. -/
def find_throttling_bucket (size : Nat) (key : Str) (T : ThrottlingTable)
    (ip : Str) : Option ThrottlingBucket :=
  (T (hash_throttling size key ip)).find? (fun b => b.ip == ip)

/-- add_throttling_bucket from src/hash.c: allocate a bucket with
count = 1 and since = now and prepend it (AddListItem) to the
address's chain. -/
def add_throttling_bucket (size : Nat) (key : Str) (now : Int) (ip : Str)
    (T : ThrottlingTable) : ThrottlingTable :=
  fun i => if i = hash_throttling size key ip then ⟨ip, now, 1⟩ :: T i else T i

/-- The bucket-eviction pass of EVENT(e_clean_out_throttling_buckets):
every chain is scanned and a bucket is removed (DelListItem and freed)
exactly when now - since exceeds THROTTLING_PERIOD (or 15 when the
period is configured as zero). The second half of the C event, which
maintains the serveropts module flags, touches no throttling state and
is not modelled. -/
def e_clean_out_throttling_buckets (period : Nat) (now : Int)
    (T : ThrottlingTable) : ThrottlingTable :=
  fun i => (T i).filter (fun n =>
    if now - n.since > (if period = 0 then (15 : Int) else (period : Int))
    then false else true)

/-- The b->count++ through the pointer returned by
find_throttling_bucket: increment the counter of the first strcmp-equal
bucket of the chain. -/
def bumpCount (ip : Str) : List ThrottlingBucket → List ThrottlingBucket
  | [] => []
  | b :: rest =>
      if b.ip == ip then { b with count := b.count + 1 } :: rest
      else b :: bumpCount ip rest

/-- throttle_can_connect from src/hash.c, returning the C result code
(0 deny, 1 allowed-not-in-list, 2 allowed) together with the table
after the call. THROTTLING_PERIOD and THROTTLING_COUNT are the
configured window and threshold; excepted is the verdict of the
external find_tkl_exception(TKL_CONNECT_FLOOD, sptr) collaborator. -/
def throttle_can_connect (size : Nat) (key : Str) (period cnt : Nat)
    (excepted : Bool) (T : ThrottlingTable) (ip : Str) :
    Nat × ThrottlingTable :=
  if period = 0 ∨ cnt = 0 then (2, T)
  else
    match find_throttling_bucket size key T ip with
    | none => (1, T)
    | some b =>
      if excepted then (2, T)
      else if b.count + 1 > (if cnt ≠ 0 then cnt else 3) then (0, T)
      else (2, fun i => if i = hash_throttling size key ip
                        then bumpCount ip (T i) else T i)

/-- The interval value that init_throttling in src/hash.c passes to
EventAdd for the bucketcleaning event: 120 when THROTTLING_PERIOD is
zero, otherwise half the period, with the two sequential adjustments
v = 5000 when v > 5 and v = 1000 when v < 1. -/
def init_throttling_interval (period : Nat) : Nat :=
  if period = 0 then 120
  else
    let v := period / 2
    let v := if v > 5 then 5000 else v
    let v := if v < 1 then 1000 else v
    v

/-- Bumping the counter rewrites the find? result of the chain: the
first strcmp-equal bucket is found with its counter incremented. -/
theorem bumpCount_find? (ip : Str) : ∀ (l : List ThrottlingBucket),
    (bumpCount ip l).find? (fun b => b.ip == ip)
      = (l.find? (fun b => b.ip == ip)).map
          (fun b => { b with count := b.count + 1 })
  | [] => by simp [bumpCount]
  | b :: rest => by
      by_cases hb : b.ip == ip
      · simp [bumpCount, hb, List.find?_cons_of_pos]
      · simp only [bumpCount, hb, Bool.false_eq_true, if_false]
        rw [List.find?_cons_of_neg _ (by simpa using hb),
          List.find?_cons_of_neg _ (by simpa using hb)]
        exact bumpCount_find? ip rest

/-- Bumping preserves a counter bound c when the first strcmp-equal
bucket (the one found) satisfies the bound after the increment. -/
theorem bumpCount_le (ip : Str) (c : Nat) : ∀ (l : List ThrottlingBucket) (b : ThrottlingBucket),
    (∀ x ∈ l, x.count ≤ c) →
    l.find? (fun x => x.ip == ip) = some b →
    b.count + 1 ≤ c →
    ∀ x ∈ bumpCount ip l, x.count ≤ c
  | [], b, _, hfind, _ => by simp [List.find?] at hfind
  | y :: rest, b, hall, hfind, hb => by
      by_cases hy : y.ip == ip
      · rw [@List.find?_cons_of_pos _ (fun x => x.ip == ip) y rest hy] at hfind
        simp only [Option.some.injEq] at hfind
        subst hfind
        intro x hx
        simp only [bumpCount, hy, if_true] at hx
        rcases List.mem_cons.mp hx with rfl | hx
        · exact hb
        · exact hall x (List.mem_cons_of_mem _ hx)
      · rw [@List.find?_cons_of_neg _ (fun x => x.ip == ip) y rest (by simpa using hy)] at hfind
        intro x hx
        simp only [bumpCount, hy, Bool.false_eq_true, if_false] at hx
        rcases List.mem_cons.mp hx with rfl | hx
        · exact hall x (List.mem_cons_self _ _)
        · exact bumpCount_le ip c rest b
            (fun z hz => hall z (List.mem_cons_of_mem _ hz)) hfind hb x hx

/-- A 16-byte all-zero hash key for concrete instances. -/
def zkey : Str := List.replicate 16 0

/-- The address text "1.2.3.4" for concrete instances. -/
def ipA : Str := [49, 46, 50, 46, 51, 46, 52]

/-- A throttling table whose every chain holds one bucket for ipA with
count already at the threshold 3. -/
def throttleCexTable : ThrottlingTable := fun _ => [⟨ipA, 0, 3⟩]

/-- A throttling table whose every chain holds one bucket for ipA with
count 5, above the threshold 3. -/
def throttleCexTable2 : ThrottlingTable := fun _ => [⟨ipA, 0, 5⟩]

/-- A throttling table whose every chain holds one bucket for ipA with
count 1. -/
def throttleWitTable : ThrottlingTable := fun _ => [⟨ipA, 0, 1⟩]

/-- Claim C1 counterexample: with threshold 3 and a bucket for the
address at count 3, throttle_can_connect denies (returns 0) and the
bucket's counter stays 3 -- the attempt counter is not incremented on
the deny path, contradicting the claim that the counter advances
independent of the decision. -/
theorem throttle_deny_no_increment_cex :
    (throttle_can_connect 4 zkey 60 3 false throttleCexTable ipA).1 = 0
  ∧ (throttle_can_connect 4 zkey 60 3 false throttleCexTable ipA).2
      (hash_throttling 4 zkey ipA) = [⟨ipA, 0, 3⟩] := by
  constructor
  · decide
  · decide

/-- Claim C1 (amended): for a non-excepted address with an existing
bucket (throttling enabled), a denied attempt (post-increment count
would exceed the threshold) leaves the table unchanged; an allowed
attempt increments the found bucket's counter; consequently counters
never grow beyond the threshold. -/
theorem throttle_counts_only_on_allow (size : Nat) (key : Str)
    (period cnt : Nat) (T : ThrottlingTable) (ip : Str) (b : ThrottlingBucket)
    (hp : period ≠ 0) (hc : cnt ≠ 0)
    (hfind : find_throttling_bucket size key T ip = some b) :
    (b.count + 1 > cnt →
      throttle_can_connect size key period cnt false T ip = (0, T))
  ∧ (b.count + 1 ≤ cnt →
      (throttle_can_connect size key period cnt false T ip).1 = 2
      ∧ find_throttling_bucket size key
          (throttle_can_connect size key period cnt false T ip).2 ip
          = some { b with count := b.count + 1 })
  ∧ ((∀ x ∈ T (hash_throttling size key ip), x.count ≤ cnt) →
      ∀ x ∈ (throttle_can_connect size key period cnt false T ip).2
            (hash_throttling size key ip), x.count ≤ cnt) := by
  have hpc : ¬(period = 0 ∨ cnt = 0) := by simp [hp, hc]
  have hthr : (if cnt ≠ 0 then cnt else 3) = cnt := if_pos hc
  refine ⟨?_, ?_, ?_⟩
  · intro hgt
    simp only [throttle_can_connect, if_neg hpc, hfind, hthr, Bool.false_eq_true,
      if_false, if_pos hgt]
  · intro hle
    have hngt : ¬ b.count + 1 > cnt := by omega
    simp only [throttle_can_connect, if_neg hpc, hfind, hthr, Bool.false_eq_true,
      if_false, if_neg hngt]
    refine ⟨trivial, ?_⟩
    simp only [find_throttling_bucket, eq_self_iff_true, if_true]
    rw [bumpCount_find?]
    unfold find_throttling_bucket at hfind
    rw [hfind]
    rfl
  · intro hall
    simp only [throttle_can_connect, if_neg hpc, hfind, hthr, Bool.false_eq_true, if_false]
    by_cases hgt : b.count + 1 > cnt
    · simpa [if_pos hgt] using hall
    · simp only [if_neg hgt, if_pos rfl]
      exact bumpCount_le ip cnt (T (hash_throttling size key ip)) b hall hfind (by omega)

/-- Claim C1 (amended) witness: threshold 3, bucket at count 1, the
attempt is allowed and the counter moves to 2. -/
theorem throttle_counts_only_on_allow_witness :
    find_throttling_bucket 4 zkey throttleWitTable ipA = some ⟨ipA, 0, 1⟩
  ∧ (throttle_can_connect 4 zkey 60 3 false throttleWitTable ipA).1 = 2
  ∧ find_throttling_bucket 4 zkey
      (throttle_can_connect 4 zkey 60 3 false throttleWitTable ipA).2 ipA
      = some ⟨ipA, 0, 2⟩ :=
  ⟨by decide,
    (throttle_counts_only_on_allow 4 zkey 60 3 throttleWitTable ipA ⟨ipA, 0, 1⟩
      (by decide) (by decide) (by decide)).2.1 (by decide)⟩

/-- Claim C2 counterexample: an excepted address with an existing
bucket at count 5 (threshold 3) is allowed (2) and its counter stays 5
-- counting does not continue under the exception, contradicting the
claim that the counter is still incremented on that call. -/
theorem throttle_exception_no_count_cex :
    (throttle_can_connect 4 zkey 60 3 true throttleCexTable2 ipA).1 = 2
  ∧ (throttle_can_connect 4 zkey 60 3 true throttleCexTable2 ipA).2
      (hash_throttling 4 zkey ipA) = [⟨ipA, 0, 5⟩] := by
  constructor
  · decide
  · decide

/-- Claim C2 (amended): for an excepted address with an existing
bucket, throttle_can_connect returns the allow code 2 regardless of the
bucket's prior count and leaves the table entirely unchanged -- the
exception bypasses both denial and counting. -/
theorem throttle_exception_allows_uncounted (size : Nat) (key : Str)
    (period cnt : Nat) (T : ThrottlingTable) (ip : Str) (b : ThrottlingBucket)
    (hp : period ≠ 0) (hc : cnt ≠ 0)
    (hfind : find_throttling_bucket size key T ip = some b) :
    throttle_can_connect size key period cnt true T ip = (2, T) := by
  have hpc : ¬(period = 0 ∨ cnt = 0) := by simp [hp, hc]
  simp only [throttle_can_connect, if_neg hpc, hfind, if_pos rfl, if_true]

/-- Claim C2 (amended) witness: the excepted address with count 5 above
threshold 3 is allowed with the table unchanged. -/
theorem throttle_exception_allows_uncounted_witness :
    find_throttling_bucket 4 zkey throttleCexTable2 ipA = some ⟨ipA, 0, 5⟩
  ∧ throttle_can_connect 4 zkey 60 3 true throttleCexTable2 ipA
      = (2, throttleCexTable2) :=
  ⟨by decide,
    throttle_exception_allows_uncounted 4 zkey 60 3 throttleCexTable2 ipA
      ⟨ipA, 0, 5⟩ (by decide) (by decide) (by decide)⟩

/-- Claim C3 counterexample: with the throttling period configured as
zero, init_throttling registers the sweep with interval 120, which does
not lie between 1 and 5. -/
theorem init_throttling_interval_cex :
    init_throttling_interval 0 = 120
  ∧ ¬(1 ≤ init_throttling_interval 0 ∧ init_throttling_interval 0 ≤ 5) := by
  decide

/-- Claim C3 (amended): the interval init_throttling registers is 120
exactly for a zero period, 5000 exactly when half the nonzero period
exceeds 5, 1000 exactly when half the nonzero period is below 1, and
the period's half itself exactly when that half lies between 1 and 5;
consequently the interval lies between 1 and 5 inclusive if and only
if the period is nonzero and its half lies between 1 and 5. -/
theorem init_throttling_interval_cases (period : Nat) :
    (period = 0 → init_throttling_interval period = 120)
  ∧ (period ≠ 0 → 5 < period / 2 → init_throttling_interval period = 5000)
  ∧ (period ≠ 0 → period / 2 < 1 → init_throttling_interval period = 1000)
  ∧ (period ≠ 0 → 1 ≤ period / 2 → period / 2 ≤ 5 →
      init_throttling_interval period = period / 2)
  ∧ ((1 ≤ init_throttling_interval period ∧ init_throttling_interval period ≤ 5)
      ↔ (period ≠ 0 ∧ 1 ≤ period / 2 ∧ period / 2 ≤ 5)) := by
  refine ⟨?_, ?_, ?_, ?_, ?_, ?_⟩
  · intro h0
    simp [init_throttling_interval, h0]
  · intro h0 h5
    simp only [init_throttling_interval, h0, if_false]
    split_ifs <;> omega
  · intro h0 h1
    simp only [init_throttling_interval, h0, if_false]
    split_ifs <;> omega
  · intro h0 h1 h5
    simp only [init_throttling_interval, h0, if_false]
    split_ifs <;> omega
  · intro h
    by_cases h0 : period = 0
    · rw [h0] at h
      simp [init_throttling_interval] at h
    · obtain ⟨hl, hr⟩ := h
      simp only [init_throttling_interval, h0, if_false] at hl hr
      refine ⟨h0, ?_⟩
      split_ifs at hl hr <;> omega
  · rintro ⟨h0, h1, h5⟩
    simp only [init_throttling_interval, h0, if_false]
    split_ifs <;> omega

/-- Claim C3 (amended) witness: period 8 has half 4, which lies in
[1,5], and the registered interval is exactly that half. -/
theorem init_throttling_interval_cases_witness :
    ((8 : Nat) ≠ 0 ∧ 1 ≤ 8 / 2 ∧ 8 / 2 ≤ 5)
  ∧ init_throttling_interval 8 = 8 / 2
  ∧ (1 ≤ init_throttling_interval 8 ∧ init_throttling_interval 8 ≤ 5) :=
  ⟨by decide,
   (init_throttling_interval_cases 8).2.2.2.1 (by decide) (by decide) (by decide),
   (init_throttling_interval_cases 8).2.2.2.2.mpr (by decide)⟩

/-- Claim C4: one sweep removes exactly the buckets older than the
configured window from every chain and keeps the younger ones, and when
every bucket of the address's chain for that address has expired, the
next throttle_can_connect finds no bucket and returns the allow-first
code 1 without touching the table. -/
theorem sweep_evicts_expired (size : Nat) (key : Str) (period cnt : Nat)
    (excepted : Bool) (now : Int) (T : ThrottlingTable) (ip : Str)
    (hp : period ≠ 0) (hc : cnt ≠ 0)
    (hexp : ∀ b ∈ T (hash_throttling size key ip),
      b.ip = ip → now - b.since > (period : Int)) :
    (∀ i b, b ∈ e_clean_out_throttling_buckets period now T i
        ↔ (b ∈ T i ∧ now - b.since ≤ (period : Int)))
  ∧ throttle_can_connect size key period cnt excepted
      (e_clean_out_throttling_buckets period now T) ip
      = (1, e_clean_out_throttling_buckets period now T) := by
  have hpc : ¬(period = 0 ∨ cnt = 0) := by simp [hp, hc]
  have hmem : ∀ i b, b ∈ e_clean_out_throttling_buckets period now T i
      ↔ (b ∈ T i ∧ now - b.since ≤ (period : Int)) := by
    intro i b
    simp only [e_clean_out_throttling_buckets, List.mem_filter, if_neg hp]
    constructor
    · rintro ⟨hm, hcond⟩
      refine ⟨hm, ?_⟩
      by_cases hgt : now - b.since > (period : Int)
      · rw [if_pos hgt] at hcond; cases hcond
      · omega
    · rintro ⟨hm, hle⟩
      refine ⟨hm, ?_⟩
      rw [if_neg (by omega)]
  refine ⟨hmem, ?_⟩
  have hfind : find_throttling_bucket size key
      (e_clean_out_throttling_buckets period now T) ip = none := by
    unfold find_throttling_bucket
    rw [List.find?_eq_none]
    intro b hb
    obtain ⟨hm, hle⟩ := (hmem _ b).mp hb
    intro hip
    have : b.ip = ip := by simpa using hip
    have := hexp b hm this
    omega
  simp only [throttle_can_connect, if_neg hpc, hfind]

/-- A table for the sweep witness: one bucket for ipA created at time 0
in every chain. -/
def sweepWitTable : ThrottlingTable := fun _ => [⟨ipA, 0, 2⟩]

/-- Claim C4 witness: window 60, bucket created at time 0, sweep at
time 61 evicts it and the following attempt gets the allow-first
code 1. -/
theorem sweep_evicts_expired_witness :
    (∀ b ∈ sweepWitTable (hash_throttling 4 zkey ipA),
      b.ip = ipA → (61 : Int) - b.since > (60 : Int))
  ∧ ((∀ i b, b ∈ e_clean_out_throttling_buckets 60 61 sweepWitTable i
        ↔ (b ∈ sweepWitTable i ∧ (61 : Int) - b.since ≤ (60 : Int)))
    ∧ throttle_can_connect 4 zkey 60 3 false
        (e_clean_out_throttling_buckets 60 61 sweepWitTable) ipA
        = (1, e_clean_out_throttling_buckets 60 61 sweepWitTable)) :=
  ⟨by decide,
    sweep_evicts_expired 4 zkey 60 3 false 61 sweepWitTable ipA
      (by decide) (by decide) (by decide)⟩

/-- Claim C5: find_client consults the id table exactly when the
requester is NULL or a server; an id hit is returned in preference to
the name table, an id miss falls through to the name table, and for any
other requester the result is the name-table lookup and is independent
of the id table's contents. -/
theorem find_client_policy (size : Nat) (key : Str) (idT clientT : ClientTable)
    (name : Str) (req : Option Client) :
    (trustedRequester req = true →
      (∀ a, hash_find_id size key name none idT = some a →
        find_client size key idT clientT name req = some a)
      ∧ (hash_find_id size key name none idT = none →
        find_client size key idT clientT name req
          = hash_find_client size key name none clientT))
  ∧ (trustedRequester req = false →
      find_client size key idT clientT name req
        = hash_find_client size key name none clientT
      ∧ ∀ idT2, find_client size key idT2 clientT name req
          = find_client size key idT clientT name req) := by
  constructor
  · intro ht
    constructor
    · intro a ha
      simp [find_client, ht, ha]
    · intro hn
      simp [find_client, ht, hn]
  · intro hf
    constructor
    · simp [find_client, hf]
    · intro idT2
      simp [find_client, hf]

/-- A server client with id 001 for the find_client witness. -/
def clientSrv : Client := ⟨[105, 114, 99], [48, 48, 49], true, none⟩

/-- A plain client named bob. -/
def clientPlain : Client := ⟨[98, 111, 98], [], false, none⟩

/-- An id table holding clientSrv in every chain. -/
def idTw : ClientTable := fun _ => [clientSrv]

/-- A name table holding clientPlain in every chain. -/
def cTw : ClientTable := fun _ => [clientPlain]

/-- Claim C5 witness: an unspecified (NULL) requester is trusted, the
id lookup of 001 hits clientSrv and find_client returns it. -/
theorem find_client_policy_witness :
    trustedRequester none = true
  ∧ hash_find_id 4 zkey [48, 48, 49] none idTw = some clientSrv
  ∧ find_client 4 zkey idTw cTw [48, 48, 49] none = some clientSrv :=
  ⟨rfl, by decide,
    ((find_client_policy 4 zkey idTw cTw [48, 48, 49] none).1 rfl).1 clientSrv
      (by decide)⟩

/-- Splitting a string at its first at-sign byte (64): takeWhile yields
the at-free part before it and dropWhile yields the remainder starting
with it. -/
theorem split_at_atsign : ∀ (nick serv : Str), (∀ c ∈ nick, c ≠ 64) →
    (nick ++ 64 :: serv).takeWhile (fun c => c != 64) = nick
    ∧ (nick ++ 64 :: serv).dropWhile (fun c => c != 64) = 64 :: serv
  | [], serv, _ => by
      simp [List.takeWhile_cons, List.dropWhile_cons]
  | a :: nick, serv, hno => by
      have ha : a ≠ 64 := hno a (List.mem_cons_self _ _)
      have hpa : (a != 64) = true := by simpa using ha
      obtain ⟨ih1, ih2⟩ := split_at_atsign nick serv
        (fun c hc => hno c (List.mem_cons_of_mem _ hc))
      constructor
      · simp [List.takeWhile_cons, hpa, ih1]
      · simp [List.dropWhile_cons, hpa, ih2]

/-- Claim C6: hash_find_nickatserver on nick-at-server input (fitting
the buffer) splits at the at-sign, resolves the nick part, and compares
the server part case-insensitively with the resolved client's
user->server; a match returns the resolved client, a mismatch (or a
client with no user record) returns the caller-supplied fallback. -/
theorem nickatserver_validates (size : Nat) (key : Str)
    (idT clientT : ClientTable) (bufsize : Nat) (nick serv : Str)
    (cptr : Option Client) (acptr : Client)
    (hlen : nick.length + serv.length + 1 ≤ bufsize - 1)
    (hno : ∀ c ∈ nick, c ≠ 64)
    (hres : find_client size key idT clientT nick none = some acptr) :
    hash_find_nickatserver size key idT clientT bufsize
      (nick ++ 64 :: serv) cptr
      = match acptr.user with
        | some u => if nocase_eq serv u.server then some acptr else cptr
        | none => cptr := by
  have htake : (nick ++ 64 :: serv).take (bufsize - 1) = nick ++ 64 :: serv := by
    apply List.take_of_length_le
    simp only [List.length_append, List.length_cons]
    omega
  obtain ⟨h1, h2⟩ := split_at_atsign nick serv hno
  simp only [hash_find_nickatserver, htake, h1, h2, hres, List.isEmpty_cons,
    Bool.false_eq_true, if_false, List.drop_succ_cons, List.drop_zero]

/-- A client named bob whose user record carries the server name srv. -/
def clientWithUser : Client := ⟨[98, 111, 98], [], false, some ⟨[115, 114, 118]⟩⟩

/-- A name table holding clientWithUser in every chain. -/
def cTn : ClientTable := fun _ => [clientWithUser]

/-- An empty client table. -/
def tEmpty : ClientTable := fun _ => []

/-- Claim C6 witness: resolving bob and validating the differently
cased server part SRV against the stored srv succeeds and returns the
resolved client rather than the fallback. -/
theorem nickatserver_validates_witness :
    find_client 4 zkey tEmpty cTn [98, 111, 98] none = some clientWithUser
  ∧ hash_find_nickatserver 4 zkey tEmpty cTn 100
      ([98, 111, 98] ++ 64 :: [83, 82, 86]) (some clientPlain)
      = some clientWithUser :=
  ⟨by decide,
    (nickatserver_validates 4 zkey tEmpty cTn 100 [98, 111, 98] [83, 82, 86]
      (some clientPlain) clientWithUser (by decide) (by decide) (by decide)).trans
      (by decide)⟩

/-- Claim C9: inserting a client under key K into the (untainted)
client name table makes a find under K or any case variation of K
return that client; after removing the client, a find returns the
absent sentinel (the NULL fallback), provided no other chain entry of
that bucket matches K case-insensitively. -/
theorem client_table_insert_find_remove (size : Nat) (key : Str)
    (t : ClientTable) (K K2 : Str) (c : Client)
    (hname : c.name = K)
    (hcase : K2.map tolower = K.map tolower)
    (hfresh : ∀ x ∈ t (hash_client_name size key K), nocase_eq K x.name = false) :
    hash_find_client size key K2 none
      (add_to_client_hash_table size key false K c t) = some c
  ∧ hash_find_client size key K2 none
      (del_from_client_hash_table c
        (add_to_client_hash_table size key false K c t)) = none := by
  have hbucket : hash_client_name size key K2 = hash_client_name size key K :=
    hash_client_name_invariant size key K2 K hcase
  have hmatch : nocase_eq K2 c.name = true := by
    simp [nocase_eq, hname, hcase]
  constructor
  · simp only [hash_find_client, add_to_client_hash_table, Bool.false_eq_true,
      if_false, hbucket, eq_self_iff_true, if_true]
    rw [@List.find?_cons_of_pos _ (fun x => nocase_eq K2 x.name) c
      (t (hash_client_name size key K)) hmatch]
  · simp only [hash_find_client, del_from_client_hash_table,
      add_to_client_hash_table, Bool.false_eq_true, if_false, hbucket,
      eq_self_iff_true, if_true]
    simp only [eraseClient, eq_self_iff_true, if_true]
    have hnone : (t (hash_client_name size key K)).find?
        (fun x => nocase_eq K2 x.name) = none := by
      rw [List.find?_eq_none]
      intro x hx
      have : nocase_eq K2 x.name = nocase_eq K x.name := by
        simp [nocase_eq, hcase]
      simp [this, hfresh x hx]
    rw [hnone]

/-- The client named Bob for the insert/find/remove witness. -/
def clientBob : Client := ⟨[66, 111, 98], [], false, none⟩

/-- Claim C9 witness: insert Bob into the empty table, find it under
the case variation bOB, remove it and find the absent sentinel. -/
theorem client_table_insert_find_remove_witness :
    ([98, 79, 66] : Str).map tolower = ([66, 111, 98] : Str).map tolower
  ∧ (hash_find_client 4 zkey [98, 79, 66] none
      (add_to_client_hash_table 4 zkey false [66, 111, 98] clientBob tEmpty)
      = some clientBob
    ∧ hash_find_client 4 zkey [98, 79, 66] none
        (del_from_client_hash_table clientBob
          (add_to_client_hash_table 4 zkey false [66, 111, 98] clientBob tEmpty))
      = none) :=
  ⟨by decide,
    client_table_insert_find_remove 4 zkey tEmpty [66, 111, 98] [98, 79, 66]
      clientBob rfl (by decide) (by intro x hx; simp [tEmpty] at hx)⟩

/-- Claim C10: for a channel bucket array of exactly CHAN_HASH_TABLE_SIZE
slots, every index below the size yields a defined in-bounds read and
every index strictly above the size yields the guard's NULL, but the
boundary index equal to the size slips past the guard (which tests only
hashv > size) into an out-of-bounds array read -- the undefined none
result -- instead of the NULL the claim requires for out-of-range
inputs. -/
theorem chan_bucket_boundary (size : Nat) (tbl : List (Option Nat))
    (hlen : tbl.length = size) :
    (∀ i, i < size → ∃ v, hash_get_chan_bucket size tbl i = some v)
  ∧ (∀ i, i > size → hash_get_chan_bucket size tbl i = some none)
  ∧ hash_get_chan_bucket size tbl size = none := by
  refine ⟨?_, ?_, ?_⟩
  · intro i hi
    have hng : ¬ i > size := by omega
    simp only [hash_get_chan_bucket, if_neg hng]
    exact ⟨_, List.get?_eq_get (by omega)⟩
  · intro i hi
    simp [hash_get_chan_bucket, hi]
  · have hng : ¬ size > size := lt_irrefl size
    simp only [hash_get_chan_bucket, if_neg hng]
    rw [List.get?_eq_getElem?]
    exact List.getElem?_eq_none (by omega)

/-- Claim C10 witness: with size 4 and a 4-slot array, index 3 reads in
bounds, index 5 gets the guard's NULL, and index 4 is the out-of-bounds
read. -/
theorem chan_bucket_boundary_witness :
    ([none, none, none, none] : List (Option Nat)).length = 4
  ∧ ((∀ i, i < 4 → ∃ v, hash_get_chan_bucket 4 [none, none, none, none] i = some v)
    ∧ (∀ i, i > 4 → hash_get_chan_bucket 4 [none, none, none, none] i = some none)
    ∧ hash_get_chan_bucket 4 [none, none, none, none] 4 = none) :=
  ⟨rfl, chan_bucket_boundary 4 [none, none, none, none] rfl⟩

/-- A subscription edge held in a watch header's list (the Link records
built by add_to_watch_hash_table): the subscriber client (an identity)
and the per-edge away-notify flag (lp->flags). -/
structure WatchLink where
  subscriber : Nat
  flags : Bool
deriving DecidableEq

/-- A watch header (struct Watch): the watched nick, the last-change
time and the owned subscriber list; the hnext chain link becomes the
position in the bucket chain. -/
structure Watch where
  nick : Str
  lasttime : Int
  watch : List WatchLink
deriving DecidableEq

/-- The watchTable chains: bucket index to singly-linked header chain. -/
abbrev WatchTable := Nat → List Watch

/-- hash_watch_nick_name from src/hash.c: the nocase hash modulo
WATCH_HASH_TABLE_SIZE. -/
def hash_watch_nick_name (size : Nat) (key : Str) (name : Str) : Nat :=
  siphash_nocase name key % size

/-- The header scan shared by hash_check_watch, hash_get_watch and
del_from_watch_hash_table: walk the nick's bucket chain to the first
header whose nick is mycmp-equal. -/
def findWatchHeader (size : Nat) (key : Str) (T : WatchTable) (nick : Str) :
    Option Watch :=
  (T (hash_watch_nick_name size key nick)).find? (fun w => nocase_eq w.nick nick)

/-- One notification handed to the external Notifier (sendnumeric): the
receiving subscriber and the numeric reply; the remaining formatting
arguments (names, hosts, times, away text) belong to the collaborator
and are not modelled. -/
structure Notice where
  target : Nat
  numeric : Nat
deriving DecidableEq

/-- In-place mutation of the header the chain scan stopped at: apply f
to the first nocase-equal header of the chain. -/
def updateFirstNick (nick : Str) (f : Watch → Watch) : List Watch → List Watch
  | [] => []
  | w :: rest =>
      if nocase_eq w.nick nick then f w :: rest
      else w :: updateFirstNick nick f rest

/-- hash_check_watch from src/hash.c: look up the header of cptr->name
(no-op pair when absent), set its lasttime to TStime(), then walk its
subscriber list; a non-away reply is sent to every subscriber, while
the away replies (RPL_GONEAWAY, RPL_NOTAWAY, RPL_REAWAY, passed here as
the three reply-code parameters) are sent only to subscribers whose
away-notify flag is set, RPL_NOTAWAY with its shorter argument list.
Returns the updated table and the notices in list order. -/
def hash_check_watch (size : Nat) (key : Str) (rplGONE rplNOT rplRE : Nat)
    (now : Int) (T : WatchTable) (name : Str) (reply : Nat) :
    WatchTable × List Notice :=
  let awaynotify := (reply == rplGONE) || (reply == rplNOT) || (reply == rplRE)
  match findWatchHeader size key T name with
  | none => (T, [])
  | some w =>
    let T2 : WatchTable := fun i =>
      if i = hash_watch_nick_name size key name
      then updateFirstNick name (fun x => { x with lasttime := now }) (T i)
      else T i
    let ns := w.watch.filterMap (fun lp =>
      if !awaynotify then some (⟨lp.subscriber, reply⟩ : Notice)
      else if !lp.flags then none
      else if reply == rplNOT then some (⟨lp.subscriber, reply⟩ : Notice)
      else some (⟨lp.subscriber, reply⟩ : Notice))
    (T2, ns)

/-- nocase_eq as equality of the lowercased strings. -/
theorem nocase_eq_iff (a b : Str) :
    nocase_eq a b = true ↔ a.map tolower = b.map tolower := by
  simp [nocase_eq]

/-- hash_watch_nick_name places case variations in the same bucket. -/
theorem hash_watch_nick_name_invariant (size : Nat) (key : Str) (a b : Str)
    (h : a.map tolower = b.map tolower) :
    hash_watch_nick_name size key a = hash_watch_nick_name size key b := by
  unfold hash_watch_nick_name
  rw [siphash_nocase_invariant a b key h]

/-- find? over a prefix of failures followed by a success returns the
first success. -/
theorem find?_append_first {α : Type} (p : α → Bool) :
    ∀ (l1 : List α) (a : α) (l2 : List α),
      (∀ x ∈ l1, p x = false) → p a = true →
      (l1 ++ a :: l2).find? p = some a
  | [], a, l2, _, ha => by
      simpa using List.find?_cons_of_pos l2 ha
  | x :: l1, a, l2, hpre, ha => by
      have hx : p x = false := hpre x (List.mem_cons_self _ _)
      simp only [List.cons_append]
      rw [List.find?_cons_of_neg _ (by simp [hx])]
      exact find?_append_first p l1 a l2
        (fun y hy => hpre y (List.mem_cons_of_mem _ hy)) ha

/-- updateFirstNick over a prefix of non-matching headers followed by a
matching one rewrites exactly that header. -/
theorem updateFirstNick_append (nick : Str) (g : Watch → Watch) :
    ∀ (l1 : List Watch) (w : Watch) (l2 : List Watch),
      (∀ x ∈ l1, nocase_eq x.nick nick = false) → nocase_eq w.nick nick = true →
      updateFirstNick nick g (l1 ++ w :: l2) = l1 ++ g w :: l2
  | [], w, l2, _, hw => by simp [updateFirstNick, hw]
  | x :: l1, w, l2, hpre, hw => by
      have hx := hpre x (List.mem_cons_self _ _)
      simp only [List.cons_append, updateFirstNick, hx, Bool.false_eq_true, if_false,
        List.cons.injEq, true_and]
      exact updateFirstNick_append nick g l1 w l2
        (fun y hy => hpre y (List.mem_cons_of_mem _ hy)) hw

/-- filterMap of a guarded map is the map over the filter. -/
theorem filterMap_guard_map {α β : Type} (p : α → Bool) (g : α → β) :
    ∀ l : List α,
      l.filterMap (fun a => if p a then some (g a) else none)
        = (l.filter p).map g
  | [] => rfl
  | a :: l => by
      by_cases h : p a
      · simp [List.filterMap_cons, List.filter_cons, h, filterMap_guard_map p g l]
      · simp [List.filterMap_cons, List.filter_cons, h, filterMap_guard_map p g l]

/-- Claim C7: when a watch header exists for the event's nickname,
hash_check_watch stamps the header's last-change time on every call
(whatever its subscriber list), and for the away/unaway reply kinds the
notices go exactly to the subscribers whose away-notify flag is set, in
list order, skipping all others. -/
theorem hash_check_watch_spec (size : Nat) (key : Str)
    (rplGONE rplNOT rplRE : Nat) (now : Int) (T : WatchTable) (name : Str)
    (reply : Nat) (w : Watch)
    (hw : findWatchHeader size key T name = some w) :
    findWatchHeader size key
      (hash_check_watch size key rplGONE rplNOT rplRE now T name reply).1 name
      = some { w with lasttime := now }
  ∧ ((reply = rplGONE ∨ reply = rplNOT ∨ reply = rplRE) →
      (hash_check_watch size key rplGONE rplNOT rplRE now T name reply).2
        = (w.watch.filter (fun lp => lp.flags)).map
            (fun lp => (⟨lp.subscriber, reply⟩ : Notice))) := by
  have hw2 : (T (hash_watch_nick_name size key name)).find?
      (fun x => nocase_eq x.nick name) = some w := hw
  obtain ⟨l1, l2, hdec, hpre⟩ :=
    find?_decomp (fun x => nocase_eq x.nick name)
      (T (hash_watch_nick_name size key name)) w hw2
  have hpw : nocase_eq w.nick name = true :=
    @List.find?_some Watch (fun x => nocase_eq x.nick name) w
      (T (hash_watch_nick_name size key name)) hw2
  constructor
  · simp only [hash_check_watch, hw]
    unfold findWatchHeader
    simp only [eq_self_iff_true, if_true]
    rw [hdec, updateFirstNick_append name _ l1 w l2 hpre hpw]
    exact find?_append_first _ l1 _ l2 hpre (by simpa using hpw)
  · intro hrep
    have haw : ((reply == rplGONE) || (reply == rplNOT) || (reply == rplRE)) = true := by
      rcases hrep with h | h | h <;> simp [h]
    simp only [hash_check_watch, hw]
    refine (List.filterMap_congr ?_).trans
      (filterMap_guard_map (fun lp => lp.flags)
        (fun lp => (⟨lp.subscriber, reply⟩ : Notice)) w.watch)
    intro lp _
    by_cases h : lp.flags <;> simp [haw, h]

/-- A header for bob with one away-notify subscriber 7 and one plain
subscriber 8. -/
def watchHdrBob : Watch := ⟨[98, 111, 98], 5, [⟨7, true⟩, ⟨8, false⟩]⟩

/-- A watch table holding the bob header in every chain. -/
def watchT7 : WatchTable := fun _ => [watchHdrBob]

/-- Claim C7 witness: a became-away event (reply 598) for bob stamps
the header with the current time 50 and notifies exactly subscriber 7,
skipping subscriber 8 whose away-notify flag is unset. -/
theorem hash_check_watch_spec_witness :
    findWatchHeader 4 zkey watchT7 [98, 111, 98] = some watchHdrBob
  ∧ findWatchHeader 4 zkey
      (hash_check_watch 4 zkey 598 599 597 50 watchT7 [98, 111, 98] 598).1
      [98, 111, 98] = some ⟨[98, 111, 98], 50, [⟨7, true⟩, ⟨8, false⟩]⟩
  ∧ (hash_check_watch 4 zkey 598 599 597 50 watchT7 [98, 111, 98] 598).2
      = [⟨7, 598⟩] := by
  have h := hash_check_watch_spec 4 zkey 598 599 597 50 watchT7 [98, 111, 98]
    598 watchHdrBob (by decide)
  exact ⟨by decide, h.1, (h.2 (Or.inl rfl)).trans (by decide)⟩

/-- The client-side watch bookkeeping (cptr->local): the personal watch
list -- each entry referencing the watched header by its nick, with the
per-edge away-notify flag -- and the watches counter. -/
structure LocalWatch where
  watch : List (Str × Bool)
  watches : Nat
deriving DecidableEq

/-- The single unlink hash_del_watch_list performs on a header's
subscriber list: remove the first link whose subscriber is the
departing client (the lp scan with its last-pointer). -/
def removeFirstSub (me : Nat) : List WatchLink → List WatchLink
  | [] => []
  | lp :: rest =>
      if lp.subscriber == me then rest else lp :: removeFirstSub me rest

/-- Unlinking a header from its chain in hash_del_watch_list (the
np2 != anptr pointer scan): remove the first chain entry identical to
the header. -/
def eraseFirstHeader (w : Watch) : List Watch → List Watch
  | [] => []
  | x :: rest => if x = w then rest else x :: eraseFirstHeader w rest

/-- The drain loop of hash_del_watch_list over the saved personal list.
For each entry, dereference its header (a table lookup standing for the
np->value.wptr pointer; a missing header is a dangling reference the
in-memory API never produces and is skipped). When the header carries
no link for the departing client, report the WATCH debug error for this
nick and continue; otherwise unlink the client's first link and, when
the subscriber list became empty, unlink the header from the chain of
hash(anptr->nick) and free it, else keep the shrunk header in place.
Returns the table and the reported nicks in processing order. -/
def delWatchDrain (size : Nat) (key : Str) (me : Nat) :
    WatchTable → List (Str × Bool) → WatchTable × List Str
  | T, [] => (T, [])
  | T, e :: rest =>
    match findWatchHeader size key T e.1 with
    | none => delWatchDrain size key me T rest
    | some w =>
      if w.watch.any (fun lp => lp.subscriber == me) then
        let T2 : WatchTable :=
          if (removeFirstSub me w.watch).isEmpty then
            fun i => if i = hash_watch_nick_name size key w.nick
                     then eraseFirstHeader w (T i) else T i
          else
            fun i => if i = hash_watch_nick_name size key e.1
                     then updateFirstNick e.1
                       (fun x => { x with watch := removeFirstSub me x.watch })
                       (T i)
                     else T i
        delWatchDrain size key me T2 rest
      else
        ((delWatchDrain size key me T rest).1,
          e.1 :: (delWatchDrain size key me T rest).2)

/-- hash_del_watch_list from src/hash.c: break the client's personal
list up front (watch = NULL), drain the saved list, and zero the
watches counter at the end. Returns the table, the reported nicks and
the client's local state. -/
def hash_del_watch_list (size : Nat) (key : Str) (me : Nat) (T : WatchTable)
    (cl : LocalWatch) : WatchTable × List Str × LocalWatch :=
  ((delWatchDrain size key me T cl.watch).1,
   (delWatchDrain size key me T cl.watch).2,
   ⟨[], 0⟩)

/-- eraseFirstHeader removes exactly the decomposition's middle element
when the prefix does not contain it. -/
theorem eraseFirstHeader_append (w : Watch) :
    ∀ (l1 l2 : List Watch), (∀ x ∈ l1, x ≠ w) →
      eraseFirstHeader w (l1 ++ w :: l2) = l1 ++ l2
  | [], l2, _ => by simp [eraseFirstHeader]
  | x :: l1, l2, hpre => by
      have hx : x ≠ w := hpre x (List.mem_cons_self _ _)
      simp only [List.cons_append, eraseFirstHeader, if_neg hx, List.cons.injEq,
        true_and]
      exact eraseFirstHeader_append w l1 l2
        (fun y hy => hpre y (List.mem_cons_of_mem _ hy))

/-- Membership survives eraseFirstHeader backwards. -/
theorem mem_of_eraseFirstHeader (w : Watch) :
    ∀ (l : List Watch) (x : Watch), x ∈ eraseFirstHeader w l → x ∈ l
  | [], x, hx => by simp [eraseFirstHeader] at hx
  | y :: rest, x, hx => by
      by_cases hy : y = w
      · simp only [eraseFirstHeader, if_pos hy] at hx
        exact List.mem_cons_of_mem _ hx
      · simp only [eraseFirstHeader, if_neg hy] at hx
        rcases List.mem_cons.mp hx with rfl | hx2
        · exact List.mem_cons_self _ _
        · exact List.mem_cons_of_mem _ (mem_of_eraseFirstHeader w rest x hx2)

/-- When a header holds at most one link of the departing subscriber,
the list left by removeFirstSub holds none. -/
theorem removeFirstSub_not_me (me : Nat) :
    ∀ l : List WatchLink,
      (l.filter (fun lp => lp.subscriber == me)).length ≤ 1 →
      ∀ lp ∈ removeFirstSub me l, (lp.subscriber == me) = false
  | [], _, lp, hmem => by simp [removeFirstSub] at hmem
  | x :: rest, honce, lp, hmem => by
      by_cases hx : (x.subscriber == me) = true
      · simp only [removeFirstSub, hx, if_true] at hmem
        rw [@List.filter_cons_of_pos _ (fun lp => lp.subscriber == me) x rest hx] at honce
        simp only [List.length_cons] at honce
        have hnil : rest.filter (fun lp => lp.subscriber == me) = [] :=
          List.length_eq_zero.mp (by omega)
        have := List.filter_eq_nil_iff.mp hnil lp hmem
        simpa using this
      · simp only [removeFirstSub, hx, Bool.false_eq_true, if_false] at hmem
        rcases List.mem_cons.mp hmem with rfl | hmem2
        · simpa using hx
        · rw [@List.filter_cons_of_neg _ (fun lp => lp.subscriber == me) x rest hx] at honce
          exact removeFirstSub_not_me me rest honce lp hmem2

/-- Two headers of one chain that both match a nick case-insensitively
are the same header, when the chain never repeats a nick. -/
theorem nocase_unique (l : List Watch) (nick : Str)
    (hp : l.Pairwise (fun a b => nocase_eq a.nick b.nick = false))
    (w1 : Watch) (h1 : w1 ∈ l) (w2 : Watch) (h2 : w2 ∈ l)
    (e1 : nocase_eq w1.nick nick = true) (e2 : nocase_eq w2.nick nick = true) :
    w1 = w2 := by
  by_contra hne
  have hsym : Symmetric (fun a b : Watch => nocase_eq a.nick b.nick = false) := by
    intro a b hab
    simp only [nocase_eq, beq_eq_false_iff_ne, ne_eq] at hab ⊢
    exact fun h => hab h.symm
  have hfa := List.Pairwise.forall hsym hp h1 h2 hne
  have htr : nocase_eq w1.nick w2.nick = true := by
    rw [nocase_eq_iff] at e1 e2 ⊢
    exact e1.trans e2.symm
  rw [hfa] at htr
  cases htr

/-- The drain loop leaves no header empty and none referencing the
departing subscriber, for any table whose headers sit in their hash
buckets, never repeat a nick within a chain, carry at most one link of
the subscriber, are never empty, and reference the subscriber only
from headers whose nick the personal list mentions. -/
theorem drain_cleans (size : Nat) (key : Str) (me : Nat) :
    ∀ (P : List (Str × Bool)) (T : WatchTable),
      (∀ i, ∀ w ∈ T i, hash_watch_nick_name size key w.nick = i) →
      (∀ i, (T i).Pairwise (fun a b => nocase_eq a.nick b.nick = false)) →
      (∀ i, ∀ w ∈ T i,
        (w.watch.filter (fun lp => lp.subscriber == me)).length ≤ 1) →
      (∀ i, ∀ w ∈ T i, w.watch ≠ []) →
      (∀ i, ∀ w ∈ T i, w.watch.any (fun lp => lp.subscriber == me) = true →
        ∃ e ∈ P, nocase_eq w.nick e.1 = true) →
      ∀ i w, w ∈ (delWatchDrain size key me T P).1 i →
        w.watch ≠ [] ∧ ∀ lp ∈ w.watch, (lp.subscriber == me) = false
  | [], T, hplace, huniq, honce, hne, hcov => by
      intro i w hw
      simp only [delWatchDrain] at hw
      refine ⟨hne i w hw, ?_⟩
      intro lp hlp
      cases hq : (lp.subscriber == me) with
      | false => rfl
      | true =>
          obtain ⟨e, he, _⟩ := hcov i w hw (List.any_eq_true.mpr ⟨lp, hlp, hq⟩)
          simp at he
  | e :: rest, T, hplace, huniq, honce, hne, hcov => by
      intro i w hw
      rcases hOpt : findWatchHeader size key T e.1 with _ | w0
      · -- header lookup failed (dangling reference): the entry is skipped
        simp only [delWatchDrain, hOpt] at hw
        have hcov2 : ∀ j, ∀ x ∈ T j,
            x.watch.any (fun lp => lp.subscriber == me) = true →
            ∃ e2 ∈ rest, nocase_eq x.nick e2.1 = true := by
          intro j x hx hax
          obtain ⟨e2, he2, hme⟩ := hcov j x hx hax
          rcases List.mem_cons.mp he2 with he2e | he2r
          · exfalso
            rw [he2e] at hme
            have hhx : hash_watch_nick_name size key x.nick = j := hplace j x hx
            have hEq : hash_watch_nick_name size key x.nick
                = hash_watch_nick_name size key e.1 :=
              hash_watch_nick_name_invariant size key x.nick e.1
                ((nocase_eq_iff _ _).mp hme)
            have hx2 : x ∈ T (hash_watch_nick_name size key e.1) := by
              rw [← hEq, hhx]
              exact hx
            have hnone : (T (hash_watch_nick_name size key e.1)).find?
                (fun y => nocase_eq y.nick e.1) = none := hOpt
            exact (List.find?_eq_none.mp hnone x hx2) hme
          · exact ⟨e2, he2r, hme⟩
        exact drain_cleans size key me rest T hplace huniq honce hne hcov2 i w hw
      · -- header found
        have hfind2 : (T (hash_watch_nick_name size key e.1)).find?
            (fun x => nocase_eq x.nick e.1) = some w0 := hOpt
        have hpred0 : nocase_eq w0.nick e.1 = true :=
          @List.find?_some Watch (fun x => nocase_eq x.nick e.1) w0
            (T (hash_watch_nick_name size key e.1)) hfind2
        have hmem0 : w0 ∈ T (hash_watch_nick_name size key e.1) :=
          @List.mem_of_find?_eq_some Watch (fun x => nocase_eq x.nick e.1) w0
            (T (hash_watch_nick_name size key e.1)) hfind2
        obtain ⟨l1, l2, hdec, hpre⟩ :=
          find?_decomp (fun x => nocase_eq x.nick e.1)
            (T (hash_watch_nick_name size key e.1)) w0 hfind2
        have hh : hash_watch_nick_name size key w0.nick
            = hash_watch_nick_name size key e.1 :=
          hash_watch_nick_name_invariant size key w0.nick e.1
            ((nocase_eq_iff _ _).mp hpred0)
        have hPW := huniq (hash_watch_nick_name size key e.1)
        rw [hdec] at hPW
        obtain ⟨hpw1, hpw2, hcross⟩ := List.pairwise_append.mp hPW
        obtain ⟨hw0l2, hpl2⟩ := List.pairwise_cons.mp hpw2
        have hl2no : ∀ z ∈ l2, nocase_eq z.nick e.1 = false := by
          intro z hz
          cases hq : nocase_eq z.nick e.1 with
          | false => rfl
          | true =>
              exfalso
              have htr : nocase_eq w0.nick z.nick = true := by
                rw [nocase_eq_iff] at hpred0 hq ⊢
                exact hpred0.trans hq.symm
              rw [hw0l2 z hz] at htr
              cases htr
        by_cases hany : w0.watch.any (fun lp => lp.subscriber == me) = true
        · by_cases hemp : (removeFirstSub me w0.watch).isEmpty = true
          · -- the header's list empties: the header is unlinked and freed
            simp only [delWatchDrain, hOpt, hany, if_true, hemp] at hw
            have herase : eraseFirstHeader w0
                (T (hash_watch_nick_name size key e.1)) = l1 ++ l2 := by
              rw [hdec]
              apply eraseFirstHeader_append
              intro x hx1 hxw
              have hfx := hpre x hx1
              rw [hxw, hpred0] at hfx
              cases hfx
            have hmemE : ∀ j x,
                x ∈ (if j = hash_watch_nick_name size key w0.nick
                     then eraseFirstHeader w0 (T j) else T j) → x ∈ T j := by
              intro j x hx
              by_cases hj : j = hash_watch_nick_name size key w0.nick
              · rw [if_pos hj] at hx
                exact mem_of_eraseFirstHeader w0 (T j) x hx
              · rwa [if_neg hj] at hx
            refine drain_cleans size key me rest
              (fun j => if j = hash_watch_nick_name size key w0.nick
                        then eraseFirstHeader w0 (T j) else T j)
              ?_ ?_ ?_ ?_ ?_ i w hw
            · intro j x hx
              exact hplace j x (hmemE j x hx)
            · intro j
              by_cases hj : j = hash_watch_nick_name size key w0.nick
              · simp only [hj, eq_self_iff_true, if_true]
                rw [hh, herase, List.pairwise_append]
                refine ⟨hpw1, hpl2, ?_⟩
                intro a ha b hb
                exact hcross a ha b (List.mem_cons_of_mem _ hb)
              · simp only [if_neg hj]
                exact huniq j
            · intro j x hx
              exact honce j x (hmemE j x hx)
            · intro j x hx
              exact hne j x (hmemE j x hx)
            · intro j x hx hax
              have hxT : x ∈ T j := hmemE j x hx
              obtain ⟨e2, he2, hme⟩ := hcov j x hxT hax
              rcases List.mem_cons.mp he2 with he2e | he2r
              · exfalso
                rw [he2e] at hme
                have hhx : hash_watch_nick_name size key x.nick = j := hplace j x hxT
                have hEq : hash_watch_nick_name size key x.nick
                    = hash_watch_nick_name size key e.1 :=
                  hash_watch_nick_name_invariant size key x.nick e.1
                    ((nocase_eq_iff _ _).mp hme)
                have hj : j = hash_watch_nick_name size key w0.nick := by
                  rw [hh, ← hEq, hhx]
                have hje : j = hash_watch_nick_name size key e.1 := by
                  rw [hj, hh]
                have hx3 : x ∈ (if j = hash_watch_nick_name size key w0.nick
                    then eraseFirstHeader w0 (T j) else T j) := hx
                rw [if_pos hj, hje] at hx3
                have hx2 : x ∈ eraseFirstHeader w0
                    (T (hash_watch_nick_name size key e.1)) := hx3
                rw [herase] at hx2
                rcases List.mem_append.mp hx2 with hxl1 | hxl2
                · have hfx := hpre x hxl1
                  rw [hme] at hfx
                  cases hfx
                · have hfx := hl2no x hxl2
                  rw [hme] at hfx
                  cases hfx
              · exact ⟨e2, he2r, hme⟩
          · -- the header keeps subscribers: shrink it in place
            have hempF : (removeFirstSub me w0.watch).isEmpty = false := by
              cases hq : (removeFirstSub me w0.watch).isEmpty with
              | false => rfl
              | true => exact absurd hq hemp
            simp only [delWatchDrain, hOpt, hany, if_true, hempF,
              Bool.false_eq_true, if_false] at hw
            have hupd : updateFirstNick e.1
                (fun x => { x with watch := removeFirstSub me x.watch })
                (T (hash_watch_nick_name size key e.1))
                = l1 ++ { w0 with watch := removeFirstSub me w0.watch } :: l2 := by
              rw [hdec]
              exact updateFirstNick_append e.1 _ l1 w0 l2 hpre hpred0
            have hg_me : ∀ lp ∈ removeFirstSub me w0.watch,
                (lp.subscriber == me) = false :=
              removeFirstSub_not_me me w0.watch
                (honce (hash_watch_nick_name size key e.1) w0 hmem0)
            have hgne : removeFirstSub me w0.watch ≠ [] := by
              intro hnil
              rw [hnil] at hempF
              cases hempF
            have hmemU : ∀ j x,
                x ∈ (if j = hash_watch_nick_name size key e.1
                     then updateFirstNick e.1
                       (fun x => { x with watch := removeFirstSub me x.watch })
                       (T j)
                     else T j) →
                x ∈ T j ∨ x = { w0 with watch := removeFirstSub me w0.watch } := by
              intro j x hx
              by_cases hj : j = hash_watch_nick_name size key e.1
              · rw [if_pos hj, hj, hupd] at hx
                rcases List.mem_append.mp hx with hxl1 | hxr
                · left
                  rw [hj, hdec]
                  exact List.mem_append_left _ hxl1
                · rcases List.mem_cons.mp hxr with hxg | hxl2
                  · exact Or.inr hxg
                  · left
                    rw [hj, hdec]
                    exact List.mem_append_right _ (List.mem_cons_of_mem _ hxl2)
              · rw [if_neg hj] at hx
                exact Or.inl hx
            refine drain_cleans size key me rest
              (fun j => if j = hash_watch_nick_name size key e.1
                        then updateFirstNick e.1
                          (fun x => { x with watch := removeFirstSub me x.watch })
                          (T j)
                        else T j)
              ?_ ?_ ?_ ?_ ?_ i w hw
            · intro j x hx
              rcases hmemU j x hx with hxT | hxg
              · exact hplace j x hxT
              · -- the shrunk header: same nick, hence same bucket
                by_cases hj : j = hash_watch_nick_name size key e.1
                · rw [hxg]
                  show hash_watch_nick_name size key w0.nick = j
                  rw [hh, hj]
                · exfalso
                  have hx4 : x ∈ (if j = hash_watch_nick_name size key e.1
                      then updateFirstNick e.1
                        (fun x => { x with watch := removeFirstSub me x.watch })
                        (T j)
                      else T j) := hx
                  rw [if_neg hj] at hx4
                  have hhx := hplace j x hx4
                  rw [hxg] at hhx
                  have : hash_watch_nick_name size key w0.nick = j := hhx
                  rw [hh] at this
                  exact hj this.symm
            · intro j
              by_cases hj : j = hash_watch_nick_name size key e.1
              · simp only [hj, eq_self_iff_true, if_true]
                rw [hupd, List.pairwise_append, List.pairwise_cons]
                refine ⟨hpw1, ⟨?_, hpl2⟩, ?_⟩
                · intro z hz
                  show nocase_eq w0.nick z.nick = false
                  exact hw0l2 z hz
                · intro a ha b hb
                  rcases List.mem_cons.mp hb with hbg | hbl2
                  · rw [hbg]
                    show nocase_eq a.nick w0.nick = false
                    exact hcross a ha w0 (List.mem_cons_self _ _)
                  · exact hcross a ha b (List.mem_cons_of_mem _ hbl2)
              · simp only [if_neg hj]
                exact huniq j
            · intro j x hx
              rcases hmemU j x hx with hxT | hxg
              · exact honce j x hxT
              · rw [hxg]
                show ((removeFirstSub me w0.watch).filter
                  (fun lp => lp.subscriber == me)).length ≤ 1
                have : (removeFirstSub me w0.watch).filter
                    (fun lp => lp.subscriber == me) = [] := by
                  rw [List.filter_eq_nil_iff]
                  intro a ha
                  rw [hg_me a ha]
                  simp
                rw [this]
                simp
            · intro j x hx
              rcases hmemU j x hx with hxT | hxg
              · exact hne j x hxT
              · rw [hxg]
                show removeFirstSub me w0.watch ≠ []
                exact hgne
            · intro j x hx hax
              by_cases hj : j = hash_watch_nick_name size key e.1
              · have hx4 : x ∈ (if j = hash_watch_nick_name size key e.1
                    then updateFirstNick e.1
                      (fun x => { x with watch := removeFirstSub me x.watch })
                      (T j)
                    else T j) := hx
                rw [if_pos hj, hj, hupd] at hx4
                have hx2 : x ∈ l1 ++ { w0 with watch := removeFirstSub me w0.watch } :: l2 := hx4
                rcases List.mem_append.mp hx2 with hxl1 | hxr
                · have hxT : x ∈ T j := by
                    rw [hj, hdec]
                    exact List.mem_append_left _ hxl1
                  obtain ⟨e2, he2, hme⟩ := hcov j x hxT hax
                  rcases List.mem_cons.mp he2 with he2e | he2r
                  · exfalso
                    rw [he2e] at hme
                    have hfx := hpre x hxl1
                    rw [hme] at hfx
                    cases hfx
                  · exact ⟨e2, he2r, hme⟩
                · rcases List.mem_cons.mp hxr with hxg | hxl2
                  · exfalso
                    rw [hxg] at hax
                    obtain ⟨lp, hlp, hlpme⟩ := List.any_eq_true.mp hax
                    have hlp2 : lp ∈ removeFirstSub me w0.watch := hlp
                    rw [hg_me lp hlp2] at hlpme
                    cases hlpme
                  · have hxT : x ∈ T j := by
                      rw [hj, hdec]
                      exact List.mem_append_right _ (List.mem_cons_of_mem _ hxl2)
                    obtain ⟨e2, he2, hme⟩ := hcov j x hxT hax
                    rcases List.mem_cons.mp he2 with he2e | he2r
                    · exfalso
                      rw [he2e] at hme
                      have hfx := hl2no x hxl2
                      rw [hme] at hfx
                      cases hfx
                    · exact ⟨e2, he2r, hme⟩
              · have hx4 : x ∈ (if j = hash_watch_nick_name size key e.1
                    then updateFirstNick e.1
                      (fun x => { x with watch := removeFirstSub me x.watch })
                      (T j)
                    else T j) := hx
                rw [if_neg hj] at hx4
                obtain ⟨e2, he2, hme⟩ := hcov j x hx4 hax
                rcases List.mem_cons.mp he2 with he2e | he2r
                · exfalso
                  rw [he2e] at hme
                  have hhx := hplace j x hx4
                  have hEq : hash_watch_nick_name size key x.nick
                      = hash_watch_nick_name size key e.1 :=
                    hash_watch_nick_name_invariant size key x.nick e.1
                      ((nocase_eq_iff _ _).mp hme)
                  rw [hEq] at hhx
                  exact hj hhx.symm
                · exact ⟨e2, he2r, hme⟩
        · -- the header does not reference the client: report and continue
          have hanyF : w0.watch.any (fun lp => lp.subscriber == me) = false := by
            cases hq : w0.watch.any (fun lp => lp.subscriber == me) with
            | false => rfl
            | true => exact absurd hq hany
          simp only [delWatchDrain, hOpt, hanyF, Bool.false_eq_true, if_false] at hw
          have hcov2 : ∀ j, ∀ x ∈ T j,
              x.watch.any (fun lp => lp.subscriber == me) = true →
              ∃ e2 ∈ rest, nocase_eq x.nick e2.1 = true := by
            intro j x hx hax
            obtain ⟨e2, he2, hme⟩ := hcov j x hx hax
            rcases List.mem_cons.mp he2 with he2e | he2r
            · exfalso
              rw [he2e] at hme
              have hhx : hash_watch_nick_name size key x.nick = j := hplace j x hx
              have hEq : hash_watch_nick_name size key x.nick
                  = hash_watch_nick_name size key e.1 :=
                hash_watch_nick_name_invariant size key x.nick e.1
                  ((nocase_eq_iff _ _).mp hme)
              have hx2 : x ∈ T (hash_watch_nick_name size key e.1) := by
                rw [← hEq, hhx]
                exact hx
              have hxw0 : x = w0 :=
                nocase_unique (T (hash_watch_nick_name size key e.1)) e.1
                  (huniq _) x hx2 w0 hmem0 hme hpred0
              rw [hxw0] at hax
              exact hany hax
            · exact ⟨e2, he2r, hme⟩
          exact drain_cleans size key me rest T hplace huniq honce hne hcov2 i w hw

/-- Claim C8: hash_del_watch_list drains the subscriber's entire
personal list: on completion the personal list is empty and the watches
counter is zero; under the registry's consistency invariants (headers
placed by their hash, one header per nick and chain, at most one link
per subscriber and header, no empty header, and every header linking
the subscriber listed in the personal list) the resulting table retains
no header referencing the subscriber and no empty header (headers whose
list empties are deleted); and an entry whose header does not reference
the subscriber is reported as the WATCH debug error and the drain
continues with the remaining entries. -/
theorem hash_del_watch_list_spec (size : Nat) (key : Str) (me : Nat)
    (T : WatchTable) (cl : LocalWatch)
    (hplace : ∀ i, ∀ w ∈ T i, hash_watch_nick_name size key w.nick = i)
    (huniq : ∀ i, (T i).Pairwise (fun a b => nocase_eq a.nick b.nick = false))
    (honce : ∀ i, ∀ w ∈ T i,
      (w.watch.filter (fun lp => lp.subscriber == me)).length ≤ 1)
    (hne : ∀ i, ∀ w ∈ T i, w.watch ≠ [])
    (hcov : ∀ i, ∀ w ∈ T i, w.watch.any (fun lp => lp.subscriber == me) = true →
      ∃ e ∈ cl.watch, nocase_eq w.nick e.1 = true) :
    ((hash_del_watch_list size key me T cl).2.2.watch = []
      ∧ (hash_del_watch_list size key me T cl).2.2.watches = 0)
  ∧ (∀ i w, w ∈ (hash_del_watch_list size key me T cl).1 i →
      w.watch ≠ [] ∧ ∀ lp ∈ w.watch, (lp.subscriber == me) = false)
  ∧ (∀ (T3 : WatchTable) (nick : Str) (fl : Bool) (rest : List (Str × Bool))
      (w : Watch),
      findWatchHeader size key T3 nick = some w →
      (∀ lp ∈ w.watch, (lp.subscriber == me) = false) →
      delWatchDrain size key me T3 ((nick, fl) :: rest)
        = ((delWatchDrain size key me T3 rest).1,
           nick :: (delWatchDrain size key me T3 rest).2)) := by
  refine ⟨⟨rfl, rfl⟩, ?_, ?_⟩
  · intro i w hw
    exact drain_cleans size key me cl.watch T hplace huniq honce hne hcov i w hw
  · intro T3 nick fl rest w hfindw hnome
    have hanyf : w.watch.any (fun lp => lp.subscriber == me) = false :=
      List.any_eq_false.mpr (by
        intro x hx
        rw [hnome x hx]
        simp)
    simp only [delWatchDrain, hfindw, hanyf, Bool.false_eq_true, if_false]

/-- The watched header for the disconnect-cleanup witness: bob with the
single subscriber 7. -/
def watchHdrW : Watch := ⟨[98, 111, 98], 5, [⟨7, true⟩]⟩

/-- A table holding only that header, in its proper hash bucket. -/
def watchT8 : WatchTable :=
  fun i => if i = hash_watch_nick_name 4 zkey [98, 111, 98]
           then [watchHdrW] else []

/-- Client 7's local state: watching bob, counter 1. -/
def localW : LocalWatch := ⟨[([98, 111, 98], true)], 1⟩

/-- Claim C8 witness: draining client 7's single-entry list empties the
personal list, zeroes the counter, and leaves a table with no header
referencing 7 and no empty header. -/
theorem hash_del_watch_list_spec_witness :
    ((hash_del_watch_list 4 zkey 7 watchT8 localW).2.2.watch = []
      ∧ (hash_del_watch_list 4 zkey 7 watchT8 localW).2.2.watches = 0)
  ∧ (∀ i w, w ∈ (hash_del_watch_list 4 zkey 7 watchT8 localW).1 i →
      w.watch ≠ [] ∧ ∀ lp ∈ w.watch, (lp.subscriber == 7) = false)
  ∧ (∀ (T3 : WatchTable) (nick : Str) (fl : Bool) (rest : List (Str × Bool))
      (w : Watch),
      findWatchHeader 4 zkey T3 nick = some w →
      (∀ lp ∈ w.watch, (lp.subscriber == 7) = false) →
      delWatchDrain 4 zkey 7 T3 ((nick, fl) :: rest)
        = ((delWatchDrain 4 zkey 7 T3 rest).1,
           nick :: (delWatchDrain 4 zkey 7 T3 rest).2)) :=
  hash_del_watch_list_spec 4 zkey 7 watchT8 localW
    (by
      intro i w hw
      simp only [watchT8] at hw
      by_cases hi : i = hash_watch_nick_name 4 zkey [98, 111, 98]
      · rw [if_pos hi] at hw
        rw [List.mem_singleton.mp hw, hi]
        rfl
      · rw [if_neg hi] at hw
        simp at hw)
    (by
      intro i
      simp only [watchT8]
      by_cases hi : i = hash_watch_nick_name 4 zkey [98, 111, 98]
      · rw [if_pos hi]
        exact List.pairwise_singleton _ _
      · rw [if_neg hi]
        exact List.Pairwise.nil)
    (by
      intro i w hw
      simp only [watchT8] at hw
      by_cases hi : i = hash_watch_nick_name 4 zkey [98, 111, 98]
      · rw [if_pos hi] at hw
        rw [List.mem_singleton.mp hw]
        decide
      · rw [if_neg hi] at hw
        simp at hw)
    (by
      intro i w hw
      simp only [watchT8] at hw
      by_cases hi : i = hash_watch_nick_name 4 zkey [98, 111, 98]
      · rw [if_pos hi] at hw
        rw [List.mem_singleton.mp hw]
        decide
      · rw [if_neg hi] at hw
        simp at hw)
    (by
      intro i w hw _
      simp only [watchT8] at hw
      by_cases hi : i = hash_watch_nick_name 4 zkey [98, 111, 98]
      · rw [if_pos hi] at hw
        refine ⟨([98, 111, 98], true), by simp [localW], ?_⟩
        rw [List.mem_singleton.mp hw]
        decide
      · rw [if_neg hi] at hw
        simp at hw)
